import Mathlib

/-!
# Verification of `ndarray-stats` summary statistics and binned statistics

This file gives a shallow embedding of the summary-statistics moment engine
(`src/summary_statistics/means.rs`) and of the binned-statistic aggregator
(`src/histogram/binnedstatistic.rs`), and proves the specification claims
about them.

Modelling conventions:
* The Rust code is generic over a floating-point element type `A : Float`.
  We embed the element type as the exact rationals `ℚ`, which supports all
  of the ring/field operations the algorithms use; operations that a float
  type provides but `ℚ` does not (`sqrt`, `ln`, `exp`) are taken as explicit
  function parameters, matching the genericity of the Rust trait bounds.
* A (possibly multi-dimensional) `ndarray` of elements is embedded as the
  list of its elements: the moment engine only ever uses `len`, `sum` and
  elementwise `map`, which are shape-independent.
* Fallible operations returning `Option<A>` become `Option ℚ`.
-/

/-- Embedding of `ArrayBase::mean` (means.rs, lines 11–23): `None` on an
empty collection, otherwise `sum / n`. -/
def mean (a : List ℚ) : Option ℚ :=
  if a.length = 0 then none
  else some (a.sum / (a.length : ℚ))

/-- Embedding of `harmonic_mean` (means.rs, lines 25–30):
reciprocal-then-mean-then-reciprocal. -/
def harmonic_mean (a : List ℚ) : Option ℚ :=
  (mean (a.map fun x => x⁻¹)).map fun x => x⁻¹

/-- Embedding of `geometric_mean` (means.rs, lines 32–37):
log-then-mean-then-exp.  The element type's `ln` and `exp` are abstract
function parameters (the Rust code is generic over any `Float` type). -/
def geometric_mean (ln ex : ℚ → ℚ) (a : List ℚ) : Option ℚ :=
  (mean (a.map ln)).map ex

/-- Embedding of the free function `moments` (means.rs, lines 121–143):
raw moments `[M0, M1, …, M_order]` of the collection, `M0 = 1`,
`M1 = sum / n`, `Mp = sum(x^p) / n`.  The vector is built exactly as in the
source: `vec![1]`, a push of the mean when `order ≥ 1`, then one push per
`k in 2..=order`. -/
def moments (a : List ℚ) (order : ℕ) : List ℚ :=
  let n : ℚ := (a.length : ℚ)
  (if 1 ≤ order then [1, a.sum / n] else [1]) ++
    (List.range' 2 (order - 1)).map fun k => (a.map fun x => x ^ k).sum / n

/-- Embedding of `binomial_coefficient` (means.rs, lines 166–181): the
multiplicative formula with the `C(n,k) = C(n,n-k)` symmetry reduction,
using truncating natural division exactly as the `usize` source does.
The source panics when `k > n`; the panic is modelled as `none`. -/
def binomial_coefficient (n k : ℕ) : Option ℕ :=
  if k > n then none
  else
    let k := if k > n - k then n - k else k
    some ((List.range k).foldl (fun result i => result * (n - i) / (i + 1)) 1)

/-- Embedding of `central_moment_coefficients` (means.rs, lines 150–161):
reverse the moment vector, enumerate, and scale entry `k` by
`C(order, k)` where `order` is the length of the input.  In the source the
binomial coefficient is converted with `.unwrap()`; its `k > n` panic branch
is unreachable here because the enumeration index is always `< order`, so
the `Option` is collapsed with `getD 0`. -/
def central_moment_coefficients (ms : List ℚ) : List ℚ :=
  let order := ms.length
  ms.reverse.enum.map fun km => ((binomial_coefficient order km.1).getD 0 : ℚ) * km.2

/-- Embedding of `horner_method` (means.rs, lines 195–204): fold the
coefficient vector from the highest power down, `acc = coeff + x * acc`. -/
def horner_method (coefficients : List ℚ) (indeterminate : ℚ) : ℚ :=
  coefficients.reverse.foldl (fun result coefficient => coefficient + indeterminate * result) 0

/-- Embedding of `central_moment` (means.rs, lines 55–75): orders 0 and 1
are special-cased to `1` and `0`; otherwise shift by the mean, take raw
moments of the shifted collection, and evaluate the binomial-expansion
polynomial in the correction term `c = -M'₁` by Horner's method.
`shifted_moments[1]` is in bounds (the order is ≥ 2 here), so the Rust
index is embedded as `getD 1 0`. -/
def central_moment (a : List ℚ) (order : ℕ) : Option ℚ :=
  match mean a with
  | none => none
  | some m =>
    match order with
    | 0 => some 1
    | 1 => some 0
    | n =>
      let shifted_array := a.map fun x => x - m
      let shifted_moments := moments shifted_array n
      let correction_term := -(shifted_moments.getD 1 0)
      let coefficients := central_moment_coefficients shifted_moments
      some (horner_method coefficients correction_term)

/-- Embedding of `central_moments` (means.rs, lines 77–107): the bulk
variant computes the shifted raw moments once and, for each `k in 2..=n`,
pushes the Horner evaluation over the coefficient vector of the length-
`(k+1)` prefix `&shifted_moments[..=k]`. -/
def central_moments (a : List ℚ) (order : ℕ) : Option (List ℚ) :=
  match mean a with
  | none => none
  | some m =>
    match order with
    | 0 => some [1]
    | 1 => some [1, 0]
    | n =>
      let shifted_array := a.map fun x => x - m
      let shifted_moments := moments shifted_array n
      let correction_term := -(shifted_moments.getD 1 0)
      some ((List.range' 2 (n - 1)).foldl
        (fun cms k =>
          cms ++ [horner_method (central_moment_coefficients (shifted_moments.take (k + 1)))
            correction_term])
        [1, 0])

/-- Embedding of `kurtosis` (means.rs, lines 39–45):
`moments[4] / moments[2].powi(2)` over the bulk central moments of order 4. -/
def kurtosis (a : List ℚ) : Option ℚ :=
  (central_moments a 4).map fun ms => ms.getD 4 0 / (ms.getD 2 0) ^ 2

/-- Embedding of `skewness` (means.rs, lines 47–53):
`moments[3] / moments[2].sqrt().powi(3)`, with the element type's `sqrt`
abstract. -/
def skewness (sq : ℚ → ℚ) (a : List ℚ) : Option ℚ :=
  (central_moments a 3).map fun ms => ms.getD 3 0 / (sq (ms.getD 2 0)) ^ 3

/-! ## Helper lemmas about the moment engine -/

theorem length_moments (a : List ℚ) (k : ℕ) : (moments a k).length = k + 1 := by
  rcases k with _ | k
  · simp [moments]
  · simp only [moments, if_pos (show (1:ℕ) ≤ k + 1 by omega), List.length_append,
      List.length_map, List.length_range', List.length_cons, List.length_nil]
    omega

theorem moments_getD_one (a : List ℚ) {k : ℕ} (hk : 1 ≤ k) :
    (moments a k).getD 1 0 = a.sum / (a.length : ℚ) := by
  simp [moments, hk, List.getD_cons_succ, List.getD_cons_zero,
    List.getElem?_cons_zero, List.getD_eq_getElem?_getD]

theorem sum_map_sub (a : List ℚ) (m : ℚ) :
    (a.map fun x => x - m).sum = a.sum - (a.length : ℚ) * m := by
  induction a with
  | nil => simp
  | cons x xs ih =>
    simp only [List.map_cons, List.sum_cons, ih, List.length_cons]
    push_cast
    ring

theorem shifted_sum_zero (a : List ℚ) (h : a ≠ []) :
    (a.map fun x => x - a.sum / (a.length : ℚ)).sum = 0 := by
  have hl0 : a.length ≠ 0 := fun hc => h (List.length_eq_zero.mp hc)
  have hl : (a.length : ℚ) ≠ 0 := Nat.cast_ne_zero.mpr hl0
  rw [sum_map_sub, mul_div_cancel₀ _ hl, sub_self]

theorem horner_method_zero (l : List ℚ) : horner_method l 0 = l.getD 0 0 := by
  cases l with
  | nil => rfl
  | cons c cs =>
    simp [horner_method, List.foldl_append]

theorem binomial_coefficient_zero (n : ℕ) : binomial_coefficient n 0 = some 1 := by
  simp [binomial_coefficient]

theorem central_moment_coefficients_getD_zero (ms : List ℚ) (h : ms ≠ []) :
    (central_moment_coefficients ms).getD 0 0 = ms.getD (ms.length - 1) 0 := by
  rcases hr : ms.reverse with _ | ⟨c, cs⟩
  · exact absurd (by simpa using congrArg List.reverse hr) h
  · have hlast : ms.getLast? = some c := by
      rw [← List.head?_reverse, hr, List.head?_cons]
    have hget : ms[ms.length - 1]? = some c := by
      rw [← List.getLast?_eq_getElem?, hlast]
    simp only [central_moment_coefficients, hr, List.enum_cons, List.map_cons,
      List.getD_cons_zero, binomial_coefficient_zero, Option.getD_some, Nat.cast_one, one_mul]
    rw [List.getD_eq_getElem?_getD, hget, Option.getD_some]

theorem take_range' (s : ℕ) {n m : ℕ} (h : m ≤ n) :
    (List.range' s n).take m = List.range' s m := by
  induction m generalizing s n with
  | zero => simp
  | succ m ih =>
    rcases n with _ | n
    · omega
    · rw [List.range'_succ, List.take_succ_cons, ih (s + 1) (by omega),
        List.range'_succ]

theorem moments_take (a : List ℚ) {k n : ℕ} (h : k ≤ n) :
    (moments a n).take (k + 1) = moments a k := by
  rcases k with _ | k
  · rcases n with _ | n <;> simp [moments]
  · have hn : 1 ≤ n := by omega
    have hkn : k ≤ n - 1 := by omega
    simp only [moments, if_pos hn, if_pos (show (1:ℕ) ≤ k + 1 by omega),
      List.cons_append, List.nil_append, Nat.add_sub_cancel, List.take_succ_cons]
    rw [← List.map_take, take_range' 2 hkn]

theorem foldl_append_singleton {α β : Type} (g : α → β) (l : List α) (init : List β) :
    l.foldl (fun cms k => cms ++ [g k]) init = init ++ l.map g := by
  induction l generalizing init with
  | nil => simp
  | cons x xs ih => simp [ih]

theorem mean_eq_none_iff (a : List ℚ) : mean a = none ↔ a = [] := by
  simp [mean, List.length_eq_zero]

/-- C8: `mean`, `harmonic_mean`, `geometric_mean`, `central_moment`,
`central_moments`, `skewness` and `kurtosis` return the recoverable
"no value" signal `none` exactly on the empty collection, and return a
value on every non-empty collection. -/
theorem moment_ops_none_iff_empty (a : List ℚ) :
    (mean a = none ↔ a = []) ∧
    (harmonic_mean a = none ↔ a = []) ∧
    (∀ ln ex : ℚ → ℚ, geometric_mean ln ex a = none ↔ a = []) ∧
    (∀ k, central_moment a k = none ↔ a = []) ∧
    (∀ k, central_moments a k = none ↔ a = []) ∧
    (∀ sq : ℚ → ℚ, skewness sq a = none ↔ a = []) ∧
    (kurtosis a = none ↔ a = []) := by
  have hcm : ∀ k, central_moment a k = none ↔ a = [] := by
    intro k
    rcases hma : mean a with _ | m
    · obtain rfl : a = [] := (mean_eq_none_iff a).mp hma
      rcases k with _ | _ | n <;> simp [central_moment, mean]
    · have hne : ¬a = [] := fun he => by
        rw [he] at hma; exact Option.noConfusion ((mean_eq_none_iff []).mpr rfl ▸ hma)
      rcases k with _ | _ | n <;> simp [central_moment, hma, hne]
  have hcms : ∀ k, central_moments a k = none ↔ a = [] := by
    intro k
    rcases hma : mean a with _ | m
    · obtain rfl : a = [] := (mean_eq_none_iff a).mp hma
      rcases k with _ | _ | n <;> simp [central_moments, mean]
    · have hne : ¬a = [] := fun he => by
        rw [he] at hma; exact Option.noConfusion ((mean_eq_none_iff []).mpr rfl ▸ hma)
      rcases k with _ | _ | n <;> simp [central_moments, hma, hne]
  refine ⟨mean_eq_none_iff a, ?_, ?_, hcm, hcms, ?_, ?_⟩
  · rw [harmonic_mean, Option.map_eq_none', mean_eq_none_iff, List.map_eq_nil_iff]
  · intro ln ex
    rw [geometric_mean, Option.map_eq_none', mean_eq_none_iff, List.map_eq_nil_iff]
  · intro sq
    rw [skewness, Option.map_eq_none', hcms]
  · rw [kurtosis, Option.map_eq_none', hcms]

/-- C9: on any non-empty collection, `central_moment` at order 0 is exactly
`1` and at order 1 exactly `0`, and every `central_moments` result starts
with entry `1`, followed by entry `0` whenever the requested order is at
least 1 (the order-0 result is the single-entry sequence `[1]`). -/
theorem central_moment_base_orders (a : List ℚ) (h : a ≠ []) :
    central_moment a 0 = some 1 ∧ central_moment a 1 = some 0 ∧
    ∀ k l, central_moments a k = some l →
      l[0]? = some 1 ∧ (1 ≤ k → l[1]? = some 0) := by
  rcases hma : mean a with _ | m
  · exact absurd ((mean_eq_none_iff a).mp hma) h
  refine ⟨by simp [central_moment, hma], by simp [central_moment, hma], ?_⟩
  intro k l hl
  rcases k with _ | _ | n
  · rw [central_moments] at hl
    simp only [hma] at hl
    obtain rfl : [1] = l := Option.some.inj hl
    simp
  · rw [central_moments] at hl
    simp only [hma] at hl
    obtain rfl : [1, 0] = l := Option.some.inj hl
    simp
  · rw [central_moments] at hl
    simp only [hma, foldl_append_singleton] at hl
    obtain rfl := Option.some.inj hl
    simp

/-- Witness for `central_moment_base_orders` at the concrete collection `[1]`. -/
theorem central_moment_base_orders_witness :
    ([(1:ℚ)] ≠ []) ∧
    (central_moment [(1:ℚ)] 0 = some 1 ∧ central_moment [(1:ℚ)] 1 = some 0 ∧
      ∀ k l, central_moments [(1:ℚ)] k = some l →
        l[0]? = some 1 ∧ (1 ≤ k → l[1]? = some 0)) :=
  ⟨by simp, central_moment_base_orders [(1:ℚ)] (by simp)⟩

theorem shifted_moments_getD_one (a : List ℚ) (h : a ≠ []) {k : ℕ} (hk : 1 ≤ k) :
    (moments (a.map fun x => x - a.sum / (a.length : ℚ)) k).getD 1 0 = 0 := by
  rw [moments_getD_one _ hk, shifted_sum_zero a h, zero_div]

/-- C1: for every non-empty collection and order `k ≥ 2`, `central_moment`
equals the binomial-theorem combination `Σ_{i=0}^{k} C(k,i) · M'_{k-i} · cⁱ`
of the raw moments `M'₀..M'ₖ` of the mean-shifted collection with the
correction term `c = −M'₁`. -/
theorem central_moment_eq_binomial_sum (a : List ℚ) (k : ℕ)
    (h : a ≠ []) (hk : 2 ≤ k) :
    ∃ m, mean a = some m ∧
      central_moment a k =
        some (∑ i ∈ Finset.range (k + 1),
          (Nat.choose k i : ℚ) *
            (moments (a.map fun x => x - m) k).getD (k - i) 0 *
            (-(moments (a.map fun x => x - m) k).getD 1 0) ^ i) := by
  have hl0 : a.length ≠ 0 := fun hc => h (List.length_eq_zero.mp hc)
  have hma : mean a = some (a.sum / (a.length : ℚ)) := by
    simp [mean, hl0]
  refine ⟨_, hma, ?_⟩
  obtain ⟨j, rfl⟩ : ∃ j, k = j + 2 := ⟨k - 2, by omega⟩
  set m := a.sum / (a.length : ℚ) with hm
  set sm := moments (a.map fun x => x - m) (j + 2) with hsm
  have hc : sm.getD 1 0 = 0 := by
    rw [hsm, hm]
    exact shifted_moments_getD_one a h (by omega)
  have hlen : sm.length = j + 3 := by rw [hsm]; exact length_moments _ _
  have hne : sm ≠ [] := by
    intro hnil; rw [hnil] at hlen; simp at hlen
  have hlhs : central_moment a (j + 2) = some (sm.getD (j + 2) 0) := by
    simp only [central_moment, hma]
    rw [← hsm, hc, neg_zero, horner_method_zero,
      central_moment_coefficients_getD_zero sm hne, hlen,
      show j + 3 - 1 = j + 2 by omega]
  rw [hlhs, hc, neg_zero]
  congr 1
  rw [Finset.sum_eq_single 0
    (fun b _ hb => by rw [zero_pow hb, mul_zero])
    (fun habs => absurd (Finset.mem_range.mpr (by omega)) habs)]
  simp

/-- Witness for `central_moment_eq_binomial_sum` at the collection `[1, 3]`
with order 2. -/
theorem central_moment_eq_binomial_sum_witness :
    (([(1:ℚ), 3] ≠ []) ∧ 2 ≤ 2) ∧
    ∃ m, mean [(1:ℚ), 3] = some m ∧
      central_moment [(1:ℚ), 3] 2 =
        some (∑ i ∈ Finset.range (2 + 1),
          (Nat.choose 2 i : ℚ) *
            (moments ([(1:ℚ), 3].map fun x => x - m) 2).getD (2 - i) 0 *
            (-(moments ([(1:ℚ), 3].map fun x => x - m) 2).getD 1 0) ^ i) :=
  ⟨⟨by simp, by norm_num⟩,
    central_moment_eq_binomial_sum [(1:ℚ), 3] 2 (by simp) (by norm_num)⟩

/-- C2: for every non-empty collection and order `k`, the bulk computation
`central_moments` produces a sequence whose `i`-th entry equals the
single-order `central_moment` exactly, for every `i ≤ k`. -/
theorem central_moments_agree_single (a : List ℚ) (k i : ℕ)
    (h : a ≠ []) (hik : i ≤ k) :
    ∃ l v, central_moments a k = some l ∧ central_moment a i = some v ∧
      l.getD i 0 = v := by
  have hl0 : a.length ≠ 0 := fun hc => h (List.length_eq_zero.mp hc)
  have hma : mean a = some (a.sum / (a.length : ℚ)) := by simp [mean, hl0]
  set m := a.sum / (a.length : ℚ) with hm
  rcases k with _ | _ | n
  · obtain rfl : i = 0 := by omega
    exact ⟨[1], 1, by simp [central_moments, hma], by simp [central_moment, hma], rfl⟩
  · rcases (by omega : i = 0 ∨ i = 1) with rfl | rfl
    · exact ⟨[1, 0], 1, by simp [central_moments, hma], by simp [central_moment, hma], rfl⟩
    · exact ⟨[1, 0], 0, by simp [central_moments, hma], by simp [central_moment, hma], rfl⟩
  · set sm := moments (a.map fun x => x - m) (n + 2) with hsm
    set c := -(sm.getD 1 0) with hcdef
    have hbulk : central_moments a (n + 2) =
        some ([1, 0] ++ (List.range' 2 (n + 1)).map fun p =>
          horner_method (central_moment_coefficients (sm.take (p + 1))) c) := by
      simp only [central_moments, hma]
      rw [← hsm, ← hcdef, show n + 2 - 1 = n + 1 by omega, foldl_append_singleton]
    rcases i with _ | _ | j
    · exact ⟨_, 1, hbulk, by simp [central_moment, hma], rfl⟩
    · exact ⟨_, 0, hbulk, by simp [central_moment, hma], rfl⟩
    · have hjn : j + 2 ≤ n + 2 := hik
      have htake : sm.take (j + 2 + 1) = moments (a.map fun x => x - m) (j + 2) := by
        rw [hsm]; exact moments_take _ hjn
      have hc2 : (moments (a.map fun x => x - m) (j + 2)).getD 1 0 = sm.getD 1 0 := by
        rw [hsm, moments_getD_one _ (by omega), moments_getD_one _ (by omega)]
      have hcmi : central_moment a (j + 2) =
          some (horner_method (central_moment_coefficients (sm.take (j + 2 + 1))) c) := by
        simp only [central_moment, hma]
        rw [htake, hcdef, hc2]
      refine ⟨_, _, hbulk, hcmi, ?_⟩
      simp only [List.cons_append, List.nil_append]
      rw [List.getD_cons_succ, List.getD_cons_succ, List.getD_eq_getElem?_getD,
        List.getElem?_map, List.getElem?_range' 2 1 (show j < n + 1 by omega)]
      simp only [Option.map_some', Option.getD_some]
      rw [show 2 + 1 * j = j + 2 by omega]

/-- Witness for `central_moments_agree_single` at `[1, 3]`, bulk order 3,
single order 2. -/
theorem central_moments_agree_single_witness :
    (([(1:ℚ), 3] ≠ []) ∧ 2 ≤ 3) ∧
    ∃ l v, central_moments [(1:ℚ), 3] 3 = some l ∧
      central_moment [(1:ℚ), 3] 2 = some v ∧ l.getD 2 0 = v :=
  ⟨⟨by simp, by norm_num⟩,
    central_moments_agree_single [(1:ℚ), 3] 3 2 (by simp) (by norm_num)⟩

/-!
## Binned statistics (`src/histogram/binnedstatistic.rs`)

The statistic element type `T : Float` is embedded as `ℚ` for the finite
arithmetic, with the `min`/`max` arrays living in `XR`, the rationals
extended with the two infinite sentinels `T::infinity()` and
`T::neg_infinity()` that the source uses as initial values.  `T::sqrt` is
an abstract function parameter.  The grid is the external `BinLocator`
collaborator: it enters the model only through its
`index_of : sample → Option index` operation, with the bin-index type `ι`
abstract; the eight backing arrays, all shaped like the grid, become
functions `ι → _`.  The in-place mutating `add_sample` becomes a function
returning the `Result` together with the post-state.
-/

/-- Extended statistic values: a rational, or one of the two infinite
sentinels of the source's float type. -/
inductive XR where
  | negInf : XR
  | fin : ℚ → XR
  | posInf : XR
deriving DecidableEq

/-- `Float::min` on non-NaN values: the smaller, with `-inf` absorbing and
`+inf` an identity. -/
def XR.min : XR → XR → XR
  | negInf, _ => negInf
  | _, negInf => negInf
  | posInf, y => y
  | x, posInf => x
  | fin a, fin b => fin (Min.min a b)

/-- `Float::max` on non-NaN values. -/
def XR.max : XR → XR → XR
  | posInf, _ => posInf
  | _, posInf => posInf
  | negInf, y => y
  | x, negInf => x
  | fin a, fin b => fin (Max.max a b)

/-- The `≤` comparison on extended statistic values, as a Boolean. -/
def XR.leb : XR → XR → Bool
  | negInf, _ => true
  | _, posInf => true
  | fin a, fin b => decide (a ≤ b)
  | _, _ => false

/-- The `BinNotFound` error (histogram error type): a unit struct signalling
that the grid resolved a sample to no bin. -/
inductive BinNotFound where
  | mk : BinNotFound
deriving DecidableEq

/-- Embedding of the `BinnedStatistic` struct (binnedstatistic.rs, lines
14–25): eight parallel arrays keyed by bin index, here functions from the
abstract bin-index type `ι`.  The grid itself is out of scope (external
`BinLocator`); only its `index_of` operation is passed to the operations
that need it. -/
structure BinnedStatistic (ι : Type) where
  count : ι → ℕ
  number : ι → ℚ
  sum : ι → ℚ
  mean : ι → ℚ
  variance : ι → ℚ
  standard_deviation : ι → ℚ
  min : ι → XR
  max : ι → XR

/-- Embedding of `BinnedStatistic::new` (binnedstatistic.rs, lines 35–55):
zero everywhere, except `min = +inf` and `max = -inf`. -/
def BinnedStatistic.new (ι : Type) : BinnedStatistic ι where
  count := fun _ => 0
  number := fun _ => 0
  sum := fun _ => 0
  mean := fun _ => 0
  variance := fun _ => 0
  standard_deviation := fun _ => 0
  min := fun _ => XR.posInf
  max := fun _ => XR.negInf

/-- Embedding of `BinnedStatistic::add_sample` (binnedstatistic.rs, lines
113–148).  `index_of` is the external grid's `Grid::index_of`; `sq` is the
element type's `sqrt`.  The source mutates `self` in place and returns
`Result<(), BinNotFound>`; here the post-state is returned alongside, so
the failing branch returns the error together with the unchanged state. -/
def BinnedStatistic.add_sample {ι P : Type} [DecidableEq ι]
    (index_of : P → Option ι) (sq : ℚ → ℚ) (s : BinnedStatistic ι)
    (sample : P) (value : ℚ) :
    Except BinNotFound Unit × BinnedStatistic ι :=
  match index_of sample with
  | some id =>
    -- Saving count
    let n1 := s.number id
    -- Calculate count & sum
    let count' := Function.update s.count id (s.count id + 1)
    let number' := Function.update s.number id (s.number id + 1)
    let sum' := Function.update s.sum id (s.sum id + value)
    -- Mean & variance
    let n := number' id
    let delta := value - s.mean id
    let delta_n := delta / n
    let term1 := delta * delta_n * n1
    let mean' := Function.update s.mean id (s.mean id + delta_n)
    let variance' := Function.update s.variance id ((s.variance id * n1 + term1) / n)
    let standard_deviation' :=
      Function.update s.standard_deviation id (sq (variance' id))
    -- Min & max
    let min' := Function.update s.min id ((s.min id).min (XR.fin value))
    let max' := Function.update s.max id ((s.max id).max (XR.fin value))
    (Except.ok (),
      { count := count', number := number', sum := sum', mean := mean',
        variance := variance', standard_deviation := standard_deviation',
        min := min', max := max' })
  | none => (Except.error BinNotFound.mk, s)

/-- The aggregator states reachable from construction by any sequence of
`add_sample` calls against a fixed grid (`index_of`) and `sqrt`. -/
inductive BinnedStatistic.Reachable {ι P : Type} [DecidableEq ι]
    (index_of : P → Option ι) (sq : ℚ → ℚ) : BinnedStatistic ι → Prop where
  | new : Reachable index_of sq (BinnedStatistic.new ι)
  | add_sample {s : BinnedStatistic ι} (sample : P) (value : ℚ) :
      Reachable index_of sq s →
      Reachable index_of sq (s.add_sample index_of sq sample value).2

/-- Embedding of `BinnedStatisticExt::binned_statistic` for 2-D sample
batches (binnedstatistic.rs, lines 852–867): build a fresh aggregator and
feed it the zip of the sample rows with the values, discarding each call's
`Result` (`let _ = …`). -/
def binned_statistic {ι P : Type} [DecidableEq ι]
    (index_of : P → Option ι) (sq : ℚ → ℚ)
    (samples : List P) (values : List ℚ) : BinnedStatistic ι :=
  (samples.zip values).foldl
    (fun acc pv => (acc.add_sample index_of sq pv.1 pv.2).2)
    (BinnedStatistic.new ι)

/-! ## Helper lemmas about the aggregator -/

theorem XR.min_fin_leb_max_fin (x y : XR) (v : ℚ) :
    (XR.min x (XR.fin v)).leb (XR.max y (XR.fin v)) = true := by
  cases x <;> cases y <;>
    simp only [XR.min, XR.max, XR.leb, decide_eq_true_eq] <;>
    first
      | rfl
      | exact le_refl v
      | exact min_le_right _ _
      | exact le_max_right _ _
      | exact le_trans (min_le_right _ _) (le_max_right _ _)

/-- On a failed lookup, `add_sample` returns `BinNotFound` and the state
unchanged. -/
theorem BinnedStatistic.add_sample_none {ι P : Type} [DecidableEq ι]
    (index_of : P → Option ι) (sq : ℚ → ℚ) (s : BinnedStatistic ι)
    (sample : P) (value : ℚ) (hio : index_of sample = none) :
    s.add_sample index_of sq sample value = (Except.error BinNotFound.mk, s) := by
  simp [BinnedStatistic.add_sample, hio]

/-- On a successful lookup, `add_sample` returns `Ok` and performs the
Welford update at the located bin. -/
theorem BinnedStatistic.add_sample_some {ι P : Type} [DecidableEq ι]
    (index_of : P → Option ι) (sq : ℚ → ℚ) (s : BinnedStatistic ι)
    (sample : P) (value : ℚ) {id : ι} (hio : index_of sample = some id) :
    s.add_sample index_of sq sample value =
      (Except.ok (),
        { count := Function.update s.count id (s.count id + 1)
          number := Function.update s.number id (s.number id + 1)
          sum := Function.update s.sum id (s.sum id + value)
          mean := Function.update s.mean id
            (s.mean id + (value - s.mean id) / (s.number id + 1))
          variance := Function.update s.variance id
            ((s.variance id * s.number id +
                (value - s.mean id) * ((value - s.mean id) / (s.number id + 1)) *
                  s.number id) /
              (s.number id + 1))
          standard_deviation := Function.update s.standard_deviation id
            (sq ((s.variance id * s.number id +
                (value - s.mean id) * ((value - s.mean id) / (s.number id + 1)) *
                  s.number id) /
              (s.number id + 1)))
          min := Function.update s.min id ((s.min id).min (XR.fin value))
          max := Function.update s.max id ((s.max id).max (XR.fin value)) }) := by
  simp [BinnedStatistic.add_sample, hio, Function.update_same]

/-- The core reachability invariant of the aggregator: `number` mirrors
`count` exactly, `variance` is nonnegative, and `min`/`max` stay at their
sentinels while the bin is empty and are ordered once it is not. -/
theorem BinnedStatistic.reachable_invariant {ι P : Type} [DecidableEq ι]
    {index_of : P → Option ι} {sq : ℚ → ℚ} {s : BinnedStatistic ι}
    (h : BinnedStatistic.Reachable index_of sq s) :
    ∀ b, s.number b = (s.count b : ℚ) ∧ 0 ≤ s.variance b ∧
      (s.count b = 0 → s.min b = XR.posInf ∧ s.max b = XR.negInf) ∧
      (0 < s.count b → (s.min b).leb (s.max b) = true) := by
  induction h with
  | new =>
    intro b
    refine ⟨rfl, le_refl 0, fun _ => ⟨rfl, rfl⟩, fun hc => absurd hc (by simp [BinnedStatistic.new])⟩
  | @add_sample t sample value hs ih =>
    intro b
    rcases hio : index_of sample with _ | id
    · rw [BinnedStatistic.add_sample_none _ _ _ _ _ hio]
      exact ih b
    · rw [BinnedStatistic.add_sample_some _ _ _ _ _ hio]
      obtain ⟨ihn, ihv, ihz, ihm⟩ := ih b
      by_cases hb : b = id
      · subst hb
        have hn1 : (0:ℚ) ≤ t.number b := by rw [ihn]; positivity
        have hn : (0:ℚ) < t.number b + 1 := by positivity
        constructor
        · simp only [Function.update_same]
          rw [ihn]
          push_cast
          ring
        refine ⟨?_, ?_, ?_⟩
        · simp only [Function.update_same]
          have hterm : (value - t.mean b) * ((value - t.mean b) / (t.number b + 1)) *
              t.number b = (value - t.mean b) ^ 2 * t.number b / (t.number b + 1) := by
            ring
          rw [hterm]
          have h1 : (0:ℚ) ≤ t.variance b * t.number b := mul_nonneg ihv hn1
          have h2 : (0:ℚ) ≤ (value - t.mean b) ^ 2 * t.number b / (t.number b + 1) :=
            div_nonneg (mul_nonneg (sq_nonneg _) hn1) hn.le
          exact div_nonneg (add_nonneg h1 h2) hn.le
        · simp only [Function.update_same]
          intro hc
          omega
        · simp only [Function.update_same]
          intro _
          exact XR.min_fin_leb_max_fin _ _ value
      · simp only [Function.update_noteq hb]
        exact ⟨ihn, ihv, ihz, ihm⟩

/-- `standard_deviation` is definitionally `sqrt(variance)` after every
update; the construction state needs `sqrt 0 = 0` (true of the float
`sqrt`). -/
theorem BinnedStatistic.reachable_sd {ι P : Type} [DecidableEq ι]
    {index_of : P → Option ι} {sq : ℚ → ℚ} {s : BinnedStatistic ι}
    (hsq : sq 0 = 0) (h : BinnedStatistic.Reachable index_of sq s) :
    ∀ b, s.standard_deviation b = sq (s.variance b) := by
  induction h with
  | new =>
    intro b
    simp [BinnedStatistic.new, hsq]
  | @add_sample t sample value hs ih =>
    intro b
    rcases hio : index_of sample with _ | id
    · rw [BinnedStatistic.add_sample_none _ _ _ _ _ hio]
      exact ih b
    · rw [BinnedStatistic.add_sample_some _ _ _ _ _ hio]
      by_cases hb : b = id
      · subst hb
        simp only [Function.update_same]
      · simp only [Function.update_noteq hb]
        exact ih b

/-- C3: when the grid resolves a sample's coordinate to no bin,
`add_sample` returns the `BinNotFound` signal and every element of all
eight backing arrays is unchanged. -/
theorem add_sample_bin_not_found_no_op {ι P : Type} [DecidableEq ι]
    (index_of : P → Option ι) (sq : ℚ → ℚ) (s : BinnedStatistic ι)
    (sample : P) (value : ℚ) (hio : index_of sample = none) :
    (s.add_sample index_of sq sample value).1 = Except.error BinNotFound.mk ∧
    ∀ b,
      (s.add_sample index_of sq sample value).2.count b = s.count b ∧
      (s.add_sample index_of sq sample value).2.number b = s.number b ∧
      (s.add_sample index_of sq sample value).2.sum b = s.sum b ∧
      (s.add_sample index_of sq sample value).2.mean b = s.mean b ∧
      (s.add_sample index_of sq sample value).2.variance b = s.variance b ∧
      (s.add_sample index_of sq sample value).2.standard_deviation b =
        s.standard_deviation b ∧
      (s.add_sample index_of sq sample value).2.min b = s.min b ∧
      (s.add_sample index_of sq sample value).2.max b = s.max b := by
  rw [BinnedStatistic.add_sample_none _ _ _ _ _ hio]
  exact ⟨rfl, fun b => ⟨rfl, rfl, rfl, rfl, rfl, rfl, rfl, rfl⟩⟩

/-- Witness for `add_sample_bin_not_found_no_op`: a one-bin aggregator
whose locator rejects every sample. -/
theorem add_sample_bin_not_found_no_op_witness :
    ((fun _ : Unit => (none : Option Unit)) () = none) ∧
    (((BinnedStatistic.new Unit).add_sample (fun _ => none) (fun _ => 0) () 1).1 =
        Except.error BinNotFound.mk ∧
      ∀ b,
        (((BinnedStatistic.new Unit).add_sample (fun _ => none) (fun _ => 0) () 1).2.count b =
          (BinnedStatistic.new Unit).count b) ∧
        (((BinnedStatistic.new Unit).add_sample (fun _ => none) (fun _ => 0) () 1).2.number b =
          (BinnedStatistic.new Unit).number b) ∧
        (((BinnedStatistic.new Unit).add_sample (fun _ => none) (fun _ => 0) () 1).2.sum b =
          (BinnedStatistic.new Unit).sum b) ∧
        (((BinnedStatistic.new Unit).add_sample (fun _ => none) (fun _ => 0) () 1).2.mean b =
          (BinnedStatistic.new Unit).mean b) ∧
        (((BinnedStatistic.new Unit).add_sample (fun _ => none) (fun _ => 0) () 1).2.variance b =
          (BinnedStatistic.new Unit).variance b) ∧
        (((BinnedStatistic.new Unit).add_sample
            (fun _ => none) (fun _ => 0) () 1).2.standard_deviation b =
          (BinnedStatistic.new Unit).standard_deviation b) ∧
        (((BinnedStatistic.new Unit).add_sample (fun _ => none) (fun _ => 0) () 1).2.min b =
          (BinnedStatistic.new Unit).min b) ∧
        (((BinnedStatistic.new Unit).add_sample (fun _ => none) (fun _ => 0) () 1).2.max b =
          (BinnedStatistic.new Unit).max b)) :=
  ⟨rfl, add_sample_bin_not_found_no_op (fun _ => none) (fun _ => 0)
    (BinnedStatistic.new Unit) () 1 rfl⟩

/-- C4: in every reachable aggregator state, for every bin: `count = 0` iff
`number = 0`; `variance ≥ 0`; `standard_deviation = sqrt(variance)`;
`min ≤ max` once `count > 0`; and `min`/`max` are still the infinite
sentinels while `count = 0`. -/
theorem reachable_bin_invariants {ι P : Type} [DecidableEq ι]
    (index_of : P → Option ι) (sq : ℚ → ℚ) (s : BinnedStatistic ι)
    (hsq : sq 0 = 0) (h : BinnedStatistic.Reachable index_of sq s) (b : ι) :
    (s.count b = 0 ↔ s.number b = 0) ∧
    0 ≤ s.variance b ∧
    s.standard_deviation b = sq (s.variance b) ∧
    (0 < s.count b → (s.min b).leb (s.max b) = true) ∧
    (s.count b = 0 → s.min b = XR.posInf ∧ s.max b = XR.negInf) := by
  obtain ⟨hn, hv, hz, hm⟩ := BinnedStatistic.reachable_invariant h b
  refine ⟨?_, hv, BinnedStatistic.reachable_sd hsq h b, hm, hz⟩
  rw [hn]
  exact ⟨fun hc => by rw [hc]; norm_num, fun hc => Nat.cast_eq_zero.mp hc⟩

/-- Witness for `reachable_bin_invariants`: the freshly constructed
one-bin aggregator. -/
theorem reachable_bin_invariants_witness :
    ((fun _ : ℚ => (0:ℚ)) 0 = 0) ∧
    (((BinnedStatistic.new Unit).count () = 0 ↔ (BinnedStatistic.new Unit).number () = 0) ∧
      0 ≤ (BinnedStatistic.new Unit).variance () ∧
      (BinnedStatistic.new Unit).standard_deviation () =
        (fun _ : ℚ => (0:ℚ)) ((BinnedStatistic.new Unit).variance ()) ∧
      (0 < (BinnedStatistic.new Unit).count () →
        ((BinnedStatistic.new Unit).min ()).leb ((BinnedStatistic.new Unit).max ()) = true) ∧
      ((BinnedStatistic.new Unit).count () = 0 →
        (BinnedStatistic.new Unit).min () = XR.posInf ∧
          (BinnedStatistic.new Unit).max () = XR.negInf)) :=
  ⟨rfl, reachable_bin_invariants (fun _ : Unit => some ()) (fun _ => 0)
    (BinnedStatistic.new Unit) rfl BinnedStatistic.Reachable.new ()⟩

/-- C5: a successful `add_sample` increments `count` and `number` by
exactly one at the located bin, re-establishing `count == number` there,
and leaves every entry of every other bin in all eight arrays unchanged. -/
theorem add_sample_success_frame {ι P : Type} [DecidableEq ι]
    (index_of : P → Option ι) (sq : ℚ → ℚ) (s : BinnedStatistic ι)
    (sample : P) (value : ℚ) (bin : ι)
    (hio : index_of sample = some bin)
    (h : BinnedStatistic.Reachable index_of sq s) :
    (s.add_sample index_of sq sample value).1 = Except.ok () ∧
    (s.add_sample index_of sq sample value).2.count bin = s.count bin + 1 ∧
    (s.add_sample index_of sq sample value).2.number bin = s.number bin + 1 ∧
    (s.add_sample index_of sq sample value).2.number bin =
      ((s.add_sample index_of sq sample value).2.count bin : ℚ) ∧
    ∀ b, b ≠ bin →
      (s.add_sample index_of sq sample value).2.count b = s.count b ∧
      (s.add_sample index_of sq sample value).2.number b = s.number b ∧
      (s.add_sample index_of sq sample value).2.sum b = s.sum b ∧
      (s.add_sample index_of sq sample value).2.mean b = s.mean b ∧
      (s.add_sample index_of sq sample value).2.variance b = s.variance b ∧
      (s.add_sample index_of sq sample value).2.standard_deviation b =
        s.standard_deviation b ∧
      (s.add_sample index_of sq sample value).2.min b = s.min b ∧
      (s.add_sample index_of sq sample value).2.max b = s.max b := by
  obtain ⟨hn, -, -, -⟩ := BinnedStatistic.reachable_invariant h bin
  rw [BinnedStatistic.add_sample_some _ _ _ _ _ hio]
  refine ⟨rfl, ?_, ?_, ?_, ?_⟩
  · simp [Function.update_same]
  · simp [Function.update_same]
  · simp only [Function.update_same]
    rw [hn]
    push_cast
    ring
  · intro b hb
    simp [Function.update_noteq hb]


/-- Witness for `add_sample_success_frame`: one sample fed to a fresh
one-bin aggregator. -/
theorem add_sample_success_frame_witness :
    ((fun _ : Unit => some ()) () = some ()) ∧
    BinnedStatistic.Reachable (fun _ : Unit => some ()) (fun _ : ℚ => (0:ℚ))
      (BinnedStatistic.new Unit) ∧
    (((BinnedStatistic.new Unit).add_sample (fun _ => some ()) (fun _ => 0) () 1).1 =
        Except.ok () ∧
      ((BinnedStatistic.new Unit).add_sample (fun _ => some ()) (fun _ => 0) () 1).2.count () =
        (BinnedStatistic.new Unit).count () + 1 ∧
      ((BinnedStatistic.new Unit).add_sample (fun _ => some ()) (fun _ => 0) () 1).2.number () =
        (BinnedStatistic.new Unit).number () + 1 ∧
      ((BinnedStatistic.new Unit).add_sample (fun _ => some ()) (fun _ => 0) () 1).2.number () =
        (((BinnedStatistic.new Unit).add_sample
          (fun _ => some ()) (fun _ => 0) () 1).2.count () : ℚ) ∧
      ∀ b : Unit, b ≠ () →
        ((BinnedStatistic.new Unit).add_sample (fun _ => some ()) (fun _ => 0) () 1).2.count b =
          (BinnedStatistic.new Unit).count b ∧
        ((BinnedStatistic.new Unit).add_sample (fun _ => some ()) (fun _ => 0) () 1).2.number b =
          (BinnedStatistic.new Unit).number b ∧
        ((BinnedStatistic.new Unit).add_sample (fun _ => some ()) (fun _ => 0) () 1).2.sum b =
          (BinnedStatistic.new Unit).sum b ∧
        ((BinnedStatistic.new Unit).add_sample (fun _ => some ()) (fun _ => 0) () 1).2.mean b =
          (BinnedStatistic.new Unit).mean b ∧
        ((BinnedStatistic.new Unit).add_sample (fun _ => some ()) (fun _ => 0) () 1).2.variance b =
          (BinnedStatistic.new Unit).variance b ∧
        ((BinnedStatistic.new Unit).add_sample
            (fun _ => some ()) (fun _ => 0) () 1).2.standard_deviation b =
          (BinnedStatistic.new Unit).standard_deviation b ∧
        ((BinnedStatistic.new Unit).add_sample (fun _ => some ()) (fun _ => 0) () 1).2.min b =
          (BinnedStatistic.new Unit).min b ∧
        ((BinnedStatistic.new Unit).add_sample (fun _ => some ()) (fun _ => 0) () 1).2.max b =
          (BinnedStatistic.new Unit).max b) :=
  ⟨rfl, BinnedStatistic.Reachable.new,
    add_sample_success_frame (fun _ => some ()) (fun _ => 0) (BinnedStatistic.new Unit)
      () 1 () rfl BinnedStatistic.Reachable.new⟩

/-- C6: feeding the two values 1 and 2 into the single bin of a fresh
aggregator yields exactly sum 3, mean 3/2, variance 1/4,
standard deviation 1/2, min 1, max 2 and count 2 for that bin. -/
theorem two_samples_single_bin (sq : ℚ → ℚ) (hsq : sq (1/4) = 1/2) :
    ((((BinnedStatistic.new Unit).add_sample (fun _ => some ()) sq () 1).2.add_sample
        (fun _ => some ()) sq () 2).2.sum () = 3) ∧
    ((((BinnedStatistic.new Unit).add_sample (fun _ => some ()) sq () 1).2.add_sample
        (fun _ => some ()) sq () 2).2.mean () = 3/2) ∧
    ((((BinnedStatistic.new Unit).add_sample (fun _ => some ()) sq () 1).2.add_sample
        (fun _ => some ()) sq () 2).2.variance () = 1/4) ∧
    ((((BinnedStatistic.new Unit).add_sample (fun _ => some ()) sq () 1).2.add_sample
        (fun _ => some ()) sq () 2).2.standard_deviation () = 1/2) ∧
    ((((BinnedStatistic.new Unit).add_sample (fun _ => some ()) sq () 1).2.add_sample
        (fun _ => some ()) sq () 2).2.min () = XR.fin 1) ∧
    ((((BinnedStatistic.new Unit).add_sample (fun _ => some ()) sq () 1).2.add_sample
        (fun _ => some ()) sq () 2).2.max () = XR.fin 2) ∧
    ((((BinnedStatistic.new Unit).add_sample (fun _ => some ()) sq () 1).2.add_sample
        (fun _ => some ()) sq () 2).2.count () = 2) := by
  show
    let io : Unit → Option Unit := fun _ => some ()
    let s1 := ((BinnedStatistic.new Unit).add_sample io sq () 1).2
    let s2 := (s1.add_sample io sq () 2).2
    s2.sum () = 3 ∧ s2.mean () = 3/2 ∧ s2.variance () = 1/4 ∧
      s2.standard_deviation () = 1/2 ∧ s2.min () = XR.fin 1 ∧
      s2.max () = XR.fin 2 ∧ s2.count () = 2
  intro io s1 s2
  have h1 : s1.count () = 1 ∧ s1.number () = 1 ∧ s1.sum () = 1 ∧ s1.mean () = 1 ∧
      s1.variance () = 0 ∧ s1.min () = XR.fin 1 ∧ s1.max () = XR.fin 1 := by
    refine ⟨?_, ?_, ?_, ?_, ?_, ?_, ?_⟩ <;>
      norm_num [s1, io, BinnedStatistic.add_sample, BinnedStatistic.new,
        Function.update_same, XR.min, XR.max]
  obtain ⟨hc1, hn1, hs1, hm1, hv1, hmin1, hmax1⟩ := h1
  have h2 : s2 = ((s1.add_sample io sq () 2).2) := rfl
  refine ⟨?_, ?_, ?_, ?_, ?_, ?_, ?_⟩ <;>
    rw [h2, BinnedStatistic.add_sample_some io sq s1 () 2 rfl] <;>
    simp only [Function.update_same]
  · rw [hs1]; norm_num
  · rw [hm1, hn1]; norm_num
  · rw [hv1, hm1, hn1]; norm_num
  · rw [hv1, hm1, hn1]
    have harg : ((0:ℚ) * 1 + (2 - 1) * ((2 - 1) / (1 + 1)) * 1) / (1 + 1) = 1/4 := by
      norm_num
    rw [harg, hsq]
  · rw [hmin1]
    simp [XR.min]
  · rw [hmax1]
    simp [XR.max]
  · rw [hc1]

/-- Witness for `two_samples_single_bin` with a concrete square-root
function. -/
theorem two_samples_single_bin_witness :
    ((fun q : ℚ => if q = 1/4 then (1:ℚ)/2 else 0) (1/4) = 1/2) ∧
    (((((BinnedStatistic.new Unit).add_sample (fun _ => some ())
          (fun q : ℚ => if q = 1/4 then (1:ℚ)/2 else 0) () 1).2.add_sample
        (fun _ => some ()) (fun q : ℚ => if q = 1/4 then (1:ℚ)/2 else 0) () 2).2.sum () = 3) ∧
      ((((BinnedStatistic.new Unit).add_sample (fun _ => some ())
          (fun q : ℚ => if q = 1/4 then (1:ℚ)/2 else 0) () 1).2.add_sample
        (fun _ => some ()) (fun q : ℚ => if q = 1/4 then (1:ℚ)/2 else 0) () 2).2.mean () = 3/2) ∧
      ((((BinnedStatistic.new Unit).add_sample (fun _ => some ())
          (fun q : ℚ => if q = 1/4 then (1:ℚ)/2 else 0) () 1).2.add_sample
        (fun _ => some ()) (fun q : ℚ => if q = 1/4 then (1:ℚ)/2 else 0) () 2).2.variance () =
          1/4) ∧
      ((((BinnedStatistic.new Unit).add_sample (fun _ => some ())
          (fun q : ℚ => if q = 1/4 then (1:ℚ)/2 else 0) () 1).2.add_sample
        (fun _ => some ())
          (fun q : ℚ => if q = 1/4 then (1:ℚ)/2 else 0) () 2).2.standard_deviation () = 1/2) ∧
      ((((BinnedStatistic.new Unit).add_sample (fun _ => some ())
          (fun q : ℚ => if q = 1/4 then (1:ℚ)/2 else 0) () 1).2.add_sample
        (fun _ => some ()) (fun q : ℚ => if q = 1/4 then (1:ℚ)/2 else 0) () 2).2.min () =
          XR.fin 1) ∧
      ((((BinnedStatistic.new Unit).add_sample (fun _ => some ())
          (fun q : ℚ => if q = 1/4 then (1:ℚ)/2 else 0) () 1).2.add_sample
        (fun _ => some ()) (fun q : ℚ => if q = 1/4 then (1:ℚ)/2 else 0) () 2).2.max () =
          XR.fin 2) ∧
      ((((BinnedStatistic.new Unit).add_sample (fun _ => some ())
          (fun q : ℚ => if q = 1/4 then (1:ℚ)/2 else 0) () 1).2.add_sample
        (fun _ => some ()) (fun q : ℚ => if q = 1/4 then (1:ℚ)/2 else 0) () 2).2.count () = 2)) :=
  ⟨by norm_num,
    two_samples_single_bin (fun q : ℚ => if q = 1/4 then (1:ℚ)/2 else 0) (by norm_num)⟩

/-!
## The `BinContent` empty-aware value algebra
(binnedstatistic.rs, lines 888–1406)
-/

/-- Embedding of the `BinContent` enum: an empty bin, or a value. -/
inductive BinContent (T : Type) where
  | Empty : BinContent T
  | Value : T → BinContent T
deriving DecidableEq

/-- Embedding of `Neg for BinContent` (lines 1051–1060). -/
def BinContent.neg {T : Type} [Neg T] : BinContent T → BinContent T
  | Empty => Empty
  | Value v => Value (-v)

/-- Embedding of `Add for BinContent` (lines 1076–1087): `Empty` is an
additive identity. -/
def BinContent.add {T : Type} [Add T] : BinContent T → BinContent T → BinContent T
  | Empty, Empty => Empty
  | Value v, Empty => Value v
  | Empty, Value w => Value w
  | Value v, Value w => Value (v + w)

/-- Embedding of `Sub for BinContent` (lines 1136–1147). -/
def BinContent.sub {T : Type} [Neg T] [Sub T] : BinContent T → BinContent T → BinContent T
  | Empty, Empty => Empty
  | Value v, Empty => Value v
  | Empty, Value w => Value (-w)
  | Value v, Value w => Value (v - w)

/-- Embedding of `Mul for BinContent` (lines 1196–1207): `Empty` is
absorbing. -/
def BinContent.mul {T : Type} [Mul T] : BinContent T → BinContent T → BinContent T
  | Empty, Empty => Empty
  | Value _, Empty => Empty
  | Empty, Value _ => Empty
  | Value v, Value w => Value (v * w)

/-- Embedding of `Div for BinContent` (lines 1256–1267). -/
def BinContent.div {T : Type} [Div T] : BinContent T → BinContent T → BinContent T
  | Empty, Empty => Empty
  | Value _, Empty => Empty
  | Empty, Value _ => Empty
  | Value v, Value w => Value (v / w)

/-- Embedding of `Rem for BinContent` (lines 1317–1328). -/
def BinContent.rem {T : Type} [Mod T] : BinContent T → BinContent T → BinContent T
  | Empty, Empty => Empty
  | Value _, Empty => Empty
  | Empty, Value _ => Empty
  | Value v, Value w => Value (v % w)

/-- Embedding of `Zero for BinContent` (lines 1374–1384). -/
def BinContent.zero {T : Type} [Add T] : BinContent T := Empty

/-- Embedding of `One for BinContent` (lines 1396–1406). -/
def BinContent.one {T : Type} [One T] : BinContent T := Value 1

/-- C7: the `BinContent` operators are total over `{Empty, Value}` (they
are functions on the whole type) and realise exactly the §4.2 truth table:
`add`/`sub` treat `Empty` as the additive identity, `mul`/`div`/`rem`
treat it as absorbing, negation acts pointwise, `zero` is `Empty` and
`one` is `Value 1`. -/
theorem binContent_truth_table {T : Type}
    [Neg T] [Add T] [Sub T] [Mul T] [Div T] [Mod T] [One T] (v w : T) :
    BinContent.add (BinContent.Empty : BinContent T) BinContent.Empty =
      BinContent.Empty ∧
    BinContent.add (BinContent.Value v) BinContent.Empty = BinContent.Value v ∧
    BinContent.add BinContent.Empty (BinContent.Value w) = BinContent.Value w ∧
    BinContent.add (BinContent.Value v) (BinContent.Value w) =
      BinContent.Value (v + w) ∧
    BinContent.sub (BinContent.Empty : BinContent T) BinContent.Empty =
      BinContent.Empty ∧
    BinContent.sub (BinContent.Value v) BinContent.Empty = BinContent.Value v ∧
    BinContent.sub BinContent.Empty (BinContent.Value w) = BinContent.Value (-w) ∧
    BinContent.sub (BinContent.Value v) (BinContent.Value w) =
      BinContent.Value (v - w) ∧
    BinContent.mul (BinContent.Empty : BinContent T) BinContent.Empty =
      BinContent.Empty ∧
    BinContent.mul (BinContent.Value v) BinContent.Empty = BinContent.Empty ∧
    BinContent.mul BinContent.Empty (BinContent.Value w) = BinContent.Empty ∧
    BinContent.mul (BinContent.Value v) (BinContent.Value w) =
      BinContent.Value (v * w) ∧
    BinContent.div (BinContent.Empty : BinContent T) BinContent.Empty =
      BinContent.Empty ∧
    BinContent.div (BinContent.Value v) BinContent.Empty = BinContent.Empty ∧
    BinContent.div BinContent.Empty (BinContent.Value w) = BinContent.Empty ∧
    BinContent.div (BinContent.Value v) (BinContent.Value w) =
      BinContent.Value (v / w) ∧
    BinContent.rem (BinContent.Empty : BinContent T) BinContent.Empty =
      BinContent.Empty ∧
    BinContent.rem (BinContent.Value v) BinContent.Empty = BinContent.Empty ∧
    BinContent.rem BinContent.Empty (BinContent.Value w) = BinContent.Empty ∧
    BinContent.rem (BinContent.Value v) (BinContent.Value w) =
      BinContent.Value (v % w) ∧
    BinContent.neg (BinContent.Empty : BinContent T) = BinContent.Empty ∧
    BinContent.neg (BinContent.Value v) = BinContent.Value (-v) ∧
    (BinContent.zero : BinContent T) = BinContent.Empty ∧
    (BinContent.one : BinContent T) = BinContent.Value 1 :=
  ⟨rfl, rfl, rfl, rfl, rfl, rfl, rfl, rfl, rfl, rfl, rfl, rfl,
    rfl, rfl, rfl, rfl, rfl, rfl, rfl, rfl, rfl, rfl, rfl, rfl⟩

theorem getD_take {α : Type} (l : List α) {n i : ℕ} (h : i < n) (d : α) :
    (l.take n).getD i d = l.getD i d := by
  rw [List.getD_eq_getElem?_getD, List.getD_eq_getElem?_getD, List.getElem?_take,
    if_pos h]

theorem zip_eq_range_map {α β : Type} (d1 : α) (d2 : β) (l1 : List α) (l2 : List β) :
    l1.zip l2 = (List.range (min l1.length l2.length)).map
      (fun i => (l1.getD i d1, l2.getD i d2)) := by
  induction l1 generalizing l2 with
  | nil => simp
  | cons x xs ih =>
    cases l2 with
    | nil => simp
    | cons y ys =>
      have hmin : min (xs.length + 1) (ys.length + 1) = min xs.length ys.length + 1 :=
        Nat.succ_min_succ _ _
      simp only [List.zip_cons_cons, List.length_cons, hmin, List.range_succ_eq_map,
        List.map_cons, List.getD_cons_zero, List.map_map]
      congr 1
      rw [ih ys]
      apply List.map_congr_left
      intro i hi
      simp [Function.comp, List.getD_cons_succ]

/-- C10: bulk ingestion `binned_statistic` returns an aggregator rather
than a `Result` (it cannot fail), performs no batch-length check, feeds
exactly the pairs (row `i`, value `i`) for `i` below the minimum of the two
batch lengths to `add_sample` in row order while discarding each call's
`BinNotFound` result, and silently ignores all excess rows or excess
values. -/
theorem binned_statistic_bulk {ι P : Type} [DecidableEq ι]
    (index_of : P → Option ι) (sq : ℚ → ℚ) (d : P)
    (samples : List P) (values : List ℚ) :
    binned_statistic index_of sq samples values =
      (List.range (min samples.length values.length)).foldl
        (fun acc i =>
          (acc.add_sample index_of sq (samples.getD i d) (values.getD i 0)).2)
        (BinnedStatistic.new ι) ∧
    binned_statistic index_of sq samples values =
      binned_statistic index_of sq (samples.take values.length)
        (values.take samples.length) := by
  constructor
  · rw [binned_statistic, zip_eq_range_map d 0, List.foldl_map]
  · rw [binned_statistic, binned_statistic,
      zip_eq_range_map d 0 samples values,
      zip_eq_range_map d 0 (samples.take values.length) (values.take samples.length),
      List.length_take, List.length_take,
      Nat.min_comm values.length samples.length, Nat.min_self]
    congr 1
    apply List.map_congr_left
    intro i hi
    rw [List.mem_range] at hi
    rw [getD_take samples (show i < values.length by omega) d,
      getD_take values (show i < samples.length by omega) 0]
